import Mathlib

/-!
Verification of the color-quantization kernel in `pam.c`: the nearest-color
matcher `best_color_index` and the histogram builder
(`pam_computeacolorhash` / `pam_acolorhashtoacolorhist` /
`pam_computeacolorhist`).

Floating-point values (`float`/`double` in C) are modelled as exact
rationals `ℚ`; machine integers as `Nat`.  The external collaborators
`colordifference` and `to_f` (declared in `pam.h`, not part of this
repository's quantization core sources) are kept abstract: the distance
metric is a function parameter, and histogram entries retain the packed
posterized color that the conversion `to_f` would receive.
-/

/-- The floating-point pixel `f_pixel` of `pam.h`: four components, the
alpha component `a` is the only one this core's control flow inspects. -/
structure f_pixel where
  a : ℚ
  r : ℚ
  g : ℚ
  b : ℚ
deriving DecidableEq

/-- One palette slot (`colormap_item.acolor`); the other fields of
`colormap_item` are not consulted by `best_color_index`. -/
structure colormap_item where
  acolor : f_pixel
deriving DecidableEq

/-- The `colormap` of `pam.c`: its `palette` array together with the
`colors` count, modelled as a list (the count is the list length). -/
structure colormap where
  palette : List colormap_item
deriving DecidableEq

/-- `map->colors`. -/
def colormap.colors (map : colormap) : Nat := map.palette.length

/-- The loop-body acceptance test of `best_color_index` (pam.c:36-45):
the candidate at distance `newdist` replaces the incumbent at distance
`dist` iff `newdist < dist` and not (`iebug` and the candidate's alpha is
below 1 and `newdist + 1/1024 > dist`, the `continue` on pam.c:40). -/
def bci_replace (iebug : Bool) (cand : f_pixel) (newdist dist : ℚ) : Bool :=
  if newdist < dist then
    if iebug && decide (cand.a < 1) then
      if newdist + 1 / 1024 > dist then false else true
    else true
  else false

/-- The scan loop of `best_color_index` (pam.c:33-46) over the remaining
`(index, entry)` pairs, carrying the incumbent `(ind, dist)`. -/
def bci_loop (cd : f_pixel → f_pixel → ℚ) (px : f_pixel) (iebug : Bool) :
    List (Nat × colormap_item) → Nat × ℚ → Nat × ℚ
  | [], best => best
  | (i, item) :: rest, (ind, dist) =>
    let newdist := cd px item.acolor
    bci_loop cd px iebug rest
      (if bci_replace iebug item.acolor newdist dist then (i, newdist) else (ind, dist))

/-- `best_color_index` (pam.c:25-50), parametric in the external distance
metric `colordifference`.  The function reads `acolormap[0]` before any
emptiness check (pam.c:31); on an empty palette that read is out of
bounds and C defines no result, modelled as `none`. -/
def best_color_index (cd : f_pixel → f_pixel → ℚ) (px : f_pixel)
    (map : colormap) (min_opaque_val : ℚ) : Option (Nat × ℚ) :=
  match map.palette with
  | [] => none
  | first :: rest =>
    let iebug : Bool := decide (px.a > min_opaque_val)
    some (bci_loop cd px iebug (rest.enumFrom 1) (0, cd px first.acolor))

/-- The tail of `best_color_index` (pam.c:48-49): the index is returned
and the winning distance is stored through `dist_out` only when that
pointer is supplied. -/
def bci_with_out (cd : f_pixel → f_pixel → ℚ) (px : f_pixel)
    (map : colormap) (min_opaque_val : ℚ) (dist_out_supplied : Bool) :
    Option (Nat × Option ℚ) :=
  match best_color_index cd px map min_opaque_val with
  | none => none
  | some (ind, dist) => some (ind, if dist_out_supplied then some dist else none)

/-- The replacement condition as the spec words it: strict distance
improvement, and the query not opaque-biased, or the candidate fully
opaque, or the improvement strictly exceeding `1/1024`. -/
def spec_replace (px : f_pixel) (min_opaque_val : ℚ) (cand : f_pixel)
    (newdist dist : ℚ) : Prop :=
  newdist < dist ∧ (px.a ≤ min_opaque_val ∨ 1 ≤ cand.a ∨ 1 / 1024 < dist - newdist)

/-! ## Histogram construction (pam.c:67-168) -/

/-- `HASH_SIZE` (pam.c:67). -/
def HASH_SIZE : Nat := 30029

/-- The 8-bit-per-channel source pixel `rgb_pixel` of `pam.h`; each
channel is an unsigned byte. -/
structure rgb_pixel where
  r : Nat
  g : Nat
  b : Nat
  a : Nat
deriving DecidableEq

/-- `channel_mask = 255 >> ignorebits << ignorebits` (pam.c:92). -/
def channel_mask (ignorebits : Nat) : Nat := 255 >>> ignorebits <<< ignorebits

/-- `posterize_mask`: the channel mask replicated over the four byte
lanes of the packed color (pam.c:93). -/
def posterize_mask (ignorebits : Nat) : Nat :=
  channel_mask ignorebits <<< 24 ||| channel_mask ignorebits <<< 16 |||
    channel_mask ignorebits <<< 8 ||| channel_mask ignorebits

/-- Modelled from the spec: `pam.h` (not among the sources of this core)
declares `union rgb_as_long`, which reinterprets an `rgb_pixel` as one
32-bit integer `l`; per spec §3, PackedColor packs the four 8-bit
channels into a 32-bit integer, one channel per byte lane. -/
def pack (p : rgb_pixel) : Nat :=
  p.r % 256 ||| (p.g % 256) <<< 8 ||| (p.b % 256) <<< 16 ||| (p.a % 256) <<< 24

/-- `px.l &= posterize_mask` (pam.c:108): the posterized packed color of
a pixel. -/
def posterized (ignorebits : Nat) (p : rgb_pixel) : Nat :=
  pack p &&& posterize_mask ignorebits

/-- A node of a bucket chain, `struct acolorhist_list_item`: the
posterized packed color and the accumulated weight. -/
structure acolorhist_list_item where
  color : Nat
  perceptual_weight : ℚ
deriving DecidableEq

/-- The hash-table state of `pam_computeacolorhash`: the bucket array
(`acht->buckets`, all chains initially empty) together with the running
distinct-color counter (`colors`, pam.c:96). -/
structure acolorhash_table where
  buckets : Nat → List acolorhist_list_item
  colors : Nat

/-- `pam_allocacolorhash` (pam.c:137-144): empty buckets, counter 0. -/
def empty_table : acolorhash_table := ⟨fun _ => [], 0⟩

/-- `achl->perceptual_weight += boost` on the first chain node whose
color matches (pam.c:111-117). -/
def add_boost (l : Nat) (boost : ℚ) :
    List acolorhist_list_item → List acolorhist_list_item
  | [] => []
  | achl :: rest =>
    if achl.color = l then
      { achl with perceptual_weight := achl.perceptual_weight + boost } :: rest
    else achl :: add_boost l boost rest

/-- The per-pixel body of the scan loop (pam.c:107-129): posterize and
hash the pixel, search its bucket chain; on a hit add the boost to the
matching node, on a miss either abort with Overflow (`none`, pam.c:119-121,
when the incremented counter exceeds `maxacolors`) or push a fresh node
onto the head of the chain. -/
def hash_step (maxacolors ignorebits : Nat) (acht : acolorhash_table)
    (px : rgb_pixel) (boost : ℚ) : Option acolorhash_table :=
  let l := posterized ignorebits px
  let hash := l % HASH_SIZE
  if (acht.buckets hash).any (fun achl => achl.color = l) then
    some { acht with
      buckets := Function.update acht.buckets hash (add_boost l boost (acht.buckets hash)) }
  else if maxacolors < acht.colors + 1 then
    none
  else
    some { buckets := Function.update acht.buckets hash (⟨l, boost⟩ :: acht.buckets hash),
           colors := acht.colors + 1 }

/-- The scan over the remaining pixel/boost sequence; `none` propagates
the Overflow abort (pam.c:120-121 returns NULL immediately). -/
def run_hash (maxacolors ignorebits : Nat) :
    acolorhash_table → List (rgb_pixel × ℚ) → Option acolorhash_table
  | acht, [] => some acht
  | acht, (px, boost) :: rest =>
    match hash_step maxacolors ignorebits acht px boost with
    | none => none
    | some acht2 => run_hash maxacolors ignorebits acht2 rest

/-- The per-pixel weight boost (pam.c:101-105): `1.0` without an
importance map, `0.5 + importance_map[k]` for the `k`-th pixel in
row-major order (the pointer is advanced once per pixel). -/
def boost_at (importance_map : Option (Nat → ℚ)) (k : Nat) : ℚ :=
  match importance_map with
  | none => 1
  | some f => 1 / 2 + f k

/-- The row-major pixel/boost sequence visited by the double loop of
`pam_computeacolorhash` (pam.c:99-130); pixel `(row, col)` is the
`row*cols + col`-th pixel. -/
def pixel_seq (apixels : Nat → Nat → rgb_pixel) (cols rows : Nat)
    (importance_map : Option (Nat → ℚ)) : List (rgb_pixel × ℚ) :=
  (List.range rows).flatMap fun row =>
    (List.range cols).map fun col =>
      (apixels row col, boost_at importance_map (row * cols + col))

/-- `pam_computeacolorhash` (pam.c:87-135): run the scan from the empty
table; `none` is the NULL return signalling Overflow. -/
def pam_computeacolorhash (apixels : Nat → Nat → rgb_pixel) (cols rows : Nat)
    (maxacolors ignorebits : Nat) (importance_map : Option (Nat → ℚ)) :
    Option acolorhash_table :=
  run_hash maxacolors ignorebits empty_table (pixel_seq apixels cols rows importance_map)

/-- One histogram entry (`hist_item` of `pam.h` as used in pam.c:161-162):
`acolor` is `to_f(gamma, color)` for the external conversion `to_f`, so
the entry retains the posterized packed color handed to it. -/
structure hist_item where
  color : Nat
  perceptual_weight : ℚ
  adjusted_weight : ℚ
deriving DecidableEq

/-- The bucket-chain nodes in the order `pam_acolorhashtoacolorhist`
visits them (pam.c:158-159): buckets in index order, each chain
head-to-tail. -/
def table_items (acht : acolorhash_table) : List acolorhist_list_item :=
  (List.range HASH_SIZE).flatMap acht.buckets

/-- `pam_acolorhashtoacolorhist` (pam.c:146-168): one histogram entry per
chain node, `adjusted_weight` and `perceptual_weight` both set to the
node's accumulated weight (pam.c:162). -/
def pam_acolorhashtoacolorhist (acht : acolorhash_table) : List hist_item :=
  (table_items acht).map fun achl =>
    ⟨achl.color, achl.perceptual_weight, achl.perceptual_weight⟩

/-- `pam_computeacolorhist` (pam.c:73-85): build the hash table, convert
it to a histogram; a NULL hash table (Overflow) yields NULL. -/
def pam_computeacolorhist (apixels : Nat → Nat → rgb_pixel) (cols rows : Nat)
    (maxacolors ignorebits : Nat) (importance_map : Option (Nat → ℚ)) :
    Option (List hist_item) :=
  (pam_computeacolorhash apixels cols rows maxacolors ignorebits importance_map).map
    pam_acolorhashtoacolorhist

/-- The pixels of the image in row-major order. -/
def image_pixels (apixels : Nat → Nat → rgb_pixel) (cols rows : Nat) :
    List rgb_pixel :=
  (List.range rows).flatMap fun row => (List.range cols).map fun col => apixels row col

/-- The set of distinct posterized colors of a pixel list. -/
def distinct_posterized (ignorebits : Nat) (pxs : List rgb_pixel) : Finset Nat :=
  (pxs.map (posterized ignorebits)).toFinset

/-- Sum of the boosts of those pixels of the sequence whose posterized
color is `c`. -/
def boost_sum_for (ignorebits : Nat) (c : Nat) (pbs : List (rgb_pixel × ℚ)) : ℚ :=
  ((pbs.filter fun pb => posterized ignorebits pb.1 = c).map Prod.snd).sum

/-- Sum of all boosts of the sequence. -/
def boost_total (pbs : List (rgb_pixel × ℚ)) : ℚ := (pbs.map Prod.snd).sum

/-! ### Aggregates over chains and over the whole table -/

/-- The colors of a list of chain nodes, in order. -/
def colors_of (items : List acolorhist_list_item) : List Nat :=
  items.map fun achl => achl.color

/-- The total accumulated weight of a list of chain nodes. -/
def weight_sum (items : List acolorhist_list_item) : ℚ :=
  (items.map fun achl => achl.perceptual_weight).sum

/-- The accumulated weight carried by the nodes of color `c`. -/
def weight_for (c : Nat) (items : List acolorhist_list_item) : ℚ :=
  weight_sum (items.filter fun achl => achl.color = c)

/-- The set of colors present in the table. -/
def table_colors (acht : acolorhash_table) : Finset Nat :=
  (colors_of (table_items acht)).toFinset

/-- The nodes of the buckets with index below `h`, in flatten order. -/
def items_lt (bk : Nat → List acolorhist_list_item) (h : Nat) :
    List acolorhist_list_item :=
  (List.range h).flatMap bk

/-- The nodes of the buckets with index above `h` (and below `HASH_SIZE`),
in flatten order. -/
def items_gt (bk : Nat → List acolorhist_list_item) (h : Nat) :
    List acolorhist_list_item :=
  ((List.range (HASH_SIZE - (h + 1))).map fun k => h + 1 + k).flatMap bk

/-- The invariant tying the hash-table state reached by the scan to the
pixel/boost sequence already processed: every node sits in the bucket its
color hashes to, no chain holds two nodes of the same color, the running
counter is the number of distinct colors in the table, the table's colors
are exactly the posterized colors of the processed pixels, and each
color's accumulated weight is the boost sum of its pixels. -/
structure Tracks (ignorebits : Nat) (pbs : List (rgb_pixel × ℚ))
    (acht : acolorhash_table) : Prop where
  hash_ok : ∀ h, ∀ achl ∈ acht.buckets h, achl.color % HASH_SIZE = h
  chains_nodup : ∀ h, (colors_of (acht.buckets h)).Nodup
  count_eq : acht.colors = (table_colors acht).card
  colors_eq : table_colors acht = ((pbs.map fun pb => posterized ignorebits pb.1).toFinset)
  weight_eq : ∀ c, weight_for c (table_items acht) = boost_sum_for ignorebits c pbs
  total_eq : weight_sum (table_items acht) = boost_total pbs

/-! ## Layout of the flattened table -/

theorem flatMap_const_nil {α β : Type*} (l : List α) :
    (l.flatMap fun _ => ([] : List β)) = [] := by
  induction l with
  | nil => rfl
  | cons a l ih => rw [List.flatMap_cons, ih]; rfl

theorem toFinset_map_image {α β : Type*} [DecidableEq α] [DecidableEq β] (f : α → β) :
    ∀ l : List α, (l.map f).toFinset = l.toFinset.image f
  | [] => by simp
  | a :: l => by simp [toFinset_map_image f l]

theorem HASH_SIZE_pos : 0 < HASH_SIZE := by norm_num [HASH_SIZE]

theorem range_add_split (h m : Nat) :
    List.range (h + 1 + m) = List.range h ++ h :: ((List.range m).map fun k => h + 1 + k) := by
  rw [List.range_add, List.range_succ]
  simp [List.append_assoc]

theorem items_lt_update (bk : Nat → List acolorhist_list_item) (h : Nat)
    (v : List acolorhist_list_item) :
    items_lt (Function.update bk h v) h = items_lt bk h := by
  unfold items_lt
  refine List.flatMap_congr fun x hx => ?_
  have hxh : x ≠ h := by have := List.mem_range.mp hx; omega
  exact Function.update_noteq hxh v bk

theorem items_gt_update (bk : Nat → List acolorhist_list_item) (h : Nat)
    (v : List acolorhist_list_item) :
    items_gt (Function.update bk h v) h = items_gt bk h := by
  unfold items_gt
  refine List.flatMap_congr fun x hx => ?_
  have hxh : x ≠ h := by
    rcases List.mem_map.mp hx with ⟨k, _, rfl⟩
    omega
  exact Function.update_noteq hxh v bk

theorem table_items_split (acht : acolorhash_table) {h : Nat} (hh : h < HASH_SIZE) :
    table_items acht = items_lt acht.buckets h ++ acht.buckets h ++ items_gt acht.buckets h := by
  unfold table_items items_lt items_gt
  have hn : HASH_SIZE = h + 1 + (HASH_SIZE - (h + 1)) := by omega
  conv_lhs => rw [hn, range_add_split]
  rw [List.flatMap_append, List.flatMap_cons, List.append_assoc]

theorem table_items_update {h : Nat} (hh : h < HASH_SIZE)
    (bk : Nat → List acolorhist_list_item) (v : List acolorhist_list_item) (c : Nat) :
    table_items ⟨Function.update bk h v, c⟩ = items_lt bk h ++ v ++ items_gt bk h := by
  rw [table_items_split ⟨Function.update bk h v, c⟩ hh]
  show items_lt (Function.update bk h v) h ++ Function.update bk h v h ++
      items_gt (Function.update bk h v) h = _
  rw [items_lt_update, items_gt_update, Function.update_same]

theorem table_items_single {h : Nat} (hh : h < HASH_SIZE)
    (v : List acolorhist_list_item) (c : Nat) :
    table_items ⟨Function.update (fun _ => []) h v, c⟩ = v := by
  rw [table_items_update hh]
  unfold items_lt items_gt
  rw [flatMap_const_nil, flatMap_const_nil]
  simp

theorem table_items_const_nil (c : Nat) : table_items ⟨fun _ => [], c⟩ = [] := by
  unfold table_items
  exact flatMap_const_nil _

/-! ## Aggregate bookkeeping -/

theorem colors_of_nil : colors_of [] = [] := rfl

theorem colors_of_cons (a : acolorhist_list_item) (t : List acolorhist_list_item) :
    colors_of (a :: t) = a.color :: colors_of t := rfl

theorem colors_of_append (l1 l2 : List acolorhist_list_item) :
    colors_of (l1 ++ l2) = colors_of l1 ++ colors_of l2 := by
  simp [colors_of]

theorem weight_sum_nil : weight_sum [] = 0 := rfl

theorem weight_sum_cons (a : acolorhist_list_item) (t : List acolorhist_list_item) :
    weight_sum (a :: t) = a.perceptual_weight + weight_sum t := by
  simp [weight_sum]

theorem weight_sum_append (l1 l2 : List acolorhist_list_item) :
    weight_sum (l1 ++ l2) = weight_sum l1 + weight_sum l2 := by
  simp [weight_sum]

theorem weight_for_nil (c : Nat) : weight_for c [] = 0 := rfl

theorem weight_for_cons (c : Nat) (a : acolorhist_list_item)
    (t : List acolorhist_list_item) :
    weight_for c (a :: t) =
      (if a.color = c then a.perceptual_weight else 0) + weight_for c t := by
  by_cases hc : a.color = c <;>
    simp [weight_for, List.filter_cons, hc, weight_sum_cons]

theorem weight_for_append (c : Nat) (l1 l2 : List acolorhist_list_item) :
    weight_for c (l1 ++ l2) = weight_for c l1 + weight_for c l2 := by
  simp [weight_for, List.filter_append, weight_sum_append]

theorem weight_for_eq_zero (c : Nat) :
    ∀ ch : List acolorhist_list_item, c ∉ colors_of ch → weight_for c ch = 0
  | [], _ => rfl
  | a :: t, h => by
    have ha : a.color ≠ c := fun hac => h (by simp [colors_of_cons, hac])
    have ht : c ∉ colors_of t := fun hct => h (by simp [colors_of_cons, hct])
    rw [weight_for_cons, if_neg ha, weight_for_eq_zero c t ht, zero_add]

theorem weight_for_self :
    ∀ items : List acolorhist_list_item, (colors_of items).Nodup →
      ∀ achl ∈ items, weight_for achl.color items = achl.perceptual_weight
  | [], _, achl, h => absurd h (List.not_mem_nil achl)
  | a :: t, hnd, achl, h => by
    rw [colors_of_cons, List.nodup_cons] at hnd
    rcases List.mem_cons.mp h with rfl | ht
    · rw [weight_for_cons, if_pos rfl, weight_for_eq_zero _ t hnd.1, add_zero]
    · have hne : a.color ≠ achl.color := fun he =>
        hnd.1 (he ▸ List.mem_map.mpr ⟨achl, ht, rfl⟩)
      rw [weight_for_cons, if_neg hne, weight_for_self t hnd.2 achl ht, zero_add]

/-! ## Lemmas about `add_boost` -/

theorem add_boost_colors (l : Nat) (b : ℚ) :
    ∀ ch, colors_of (add_boost l b ch) = colors_of ch
  | [] => rfl
  | achl :: rest => by
    by_cases hc : achl.color = l <;>
      simp [add_boost, hc, colors_of_cons, add_boost_colors l b rest]

theorem add_boost_weight_sum (l : Nat) (b : ℚ) :
    ∀ ch, l ∈ colors_of ch → weight_sum (add_boost l b ch) = weight_sum ch + b
  | [], h => absurd h (List.not_mem_nil l)
  | achl :: rest, h => by
    by_cases hc : achl.color = l
    · simp only [add_boost, if_pos hc, weight_sum_cons]
      ring
    · have hrest : l ∈ colors_of rest := by
        rcases List.mem_cons.mp h with he | ht
        · exact absurd he.symm hc
        · exact ht
      simp only [add_boost, if_neg hc, weight_sum_cons,
        add_boost_weight_sum l b rest hrest]
      ring

theorem add_boost_weight_for (l : Nat) (b : ℚ) (c : Nat) :
    ∀ ch, l ∈ colors_of ch →
      weight_for c (add_boost l b ch) = weight_for c ch + if c = l then b else 0
  | [], h => absurd h (List.not_mem_nil l)
  | achl :: rest, h => by
    by_cases hc : achl.color = l
    · simp only [add_boost, if_pos hc, weight_for_cons]
      by_cases hcl : c = l
      · rw [if_pos hcl, if_pos (show achl.color = c from hc.trans hcl.symm),
          if_pos (show achl.color = c from hc.trans hcl.symm)]
        ring
      · rw [if_neg hcl, if_neg (fun hac => hcl (hac.symm.trans hc)),
          if_neg (fun hac => hcl (hac.symm.trans hc)), add_zero]
    · have hrest : l ∈ colors_of rest := by
        rcases List.mem_cons.mp h with he | ht
        · exact absurd he.symm hc
        · exact ht
      simp only [add_boost, if_neg hc, weight_for_cons,
        add_boost_weight_for l b c rest hrest]
      ring

/-! ## Membership and nodup lemmas for the table -/

theorem any_color_iff (ch : List acolorhist_list_item) (l : Nat) :
    (ch.any fun achl => achl.color = l) = true ↔ l ∈ colors_of ch := by
  rw [List.any_eq_true]
  constructor
  · rintro ⟨a, ha, hp⟩
    exact List.mem_map.mpr ⟨a, ha, of_decide_eq_true hp⟩
  · intro hm
    rcases List.mem_map.mp hm with ⟨a, ha, hc⟩
    exact ⟨a, ha, decide_eq_true hc⟩

theorem mem_table_colors {acht : acolorhash_table}
    (hho : ∀ h, ∀ achl ∈ acht.buckets h, achl.color % HASH_SIZE = h) (l : Nat) :
    l ∈ table_colors acht ↔ l ∈ colors_of (acht.buckets (l % HASH_SIZE)) := by
  unfold table_colors
  rw [List.mem_toFinset]
  constructor
  · intro hm
    rcases List.mem_map.mp hm with ⟨a, ha, rfl⟩
    rcases List.mem_flatMap.mp ha with ⟨h, _, hab⟩
    rw [hho h a hab]
    exact List.mem_map.mpr ⟨a, hab, rfl⟩
  · intro hm
    rcases List.mem_map.mp hm with ⟨a, hab, rfl⟩
    refine List.mem_map.mpr ⟨a, ?_, rfl⟩
    exact List.mem_flatMap.mpr
      ⟨a.color % HASH_SIZE, List.mem_range.mpr (Nat.mod_lt _ HASH_SIZE_pos), hab⟩

theorem table_colors_nodup {acht : acolorhash_table}
    (hho : ∀ h, ∀ achl ∈ acht.buckets h, achl.color % HASH_SIZE = h)
    (hnd : ∀ h, (colors_of (acht.buckets h)).Nodup) :
    (colors_of (table_items acht)).Nodup := by
  unfold colors_of table_items
  rw [List.map_flatMap, List.nodup_flatMap]
  refine ⟨fun h _ => hnd h, ?_⟩
  refine (List.pairwise_lt_range HASH_SIZE).imp ?_
  intro a b hab x hxa hxb
  rcases List.mem_map.mp hxa with ⟨i1, hi1, rfl⟩
  rcases List.mem_map.mp hxb with ⟨i2, hi2, he⟩
  have h1 := hho a i1 hi1
  have h2 := hho b i2 hi2
  rw [he] at h2
  omega

/-! ## Boost-sum bookkeeping on the pixel sequence -/

theorem boost_sum_for_append (ib c : Nat) (pbs1 pbs2 : List (rgb_pixel × ℚ)) :
    boost_sum_for ib c (pbs1 ++ pbs2) =
      boost_sum_for ib c pbs1 + boost_sum_for ib c pbs2 := by
  simp [boost_sum_for, List.filter_append]

theorem boost_sum_for_single (ib c : Nat) (px : rgb_pixel) (b : ℚ) :
    boost_sum_for ib c [(px, b)] = if posterized ib px = c then b else 0 := by
  by_cases h : posterized ib px = c <;> simp [boost_sum_for, h]

theorem boost_total_append (pbs1 pbs2 : List (rgb_pixel × ℚ)) :
    boost_total (pbs1 ++ pbs2) = boost_total pbs1 + boost_total pbs2 := by
  simp [boost_total]

theorem boost_total_single (px : rgb_pixel) (b : ℚ) :
    boost_total [(px, b)] = b := by
  simp [boost_total]

/-! ## The three outcomes of one scan step -/

theorem hash_step_found {max ib : Nat} {acht : acolorhash_table} {px : rgb_pixel} {b : ℚ}
    (hf : posterized ib px ∈ colors_of (acht.buckets (posterized ib px % HASH_SIZE))) :
    hash_step max ib acht px b = some
      { acht with
        buckets := Function.update acht.buckets (posterized ib px % HASH_SIZE)
          (add_boost (posterized ib px) b
            (acht.buckets (posterized ib px % HASH_SIZE))) } := by
  unfold hash_step
  rw [if_pos ((any_color_iff _ _).mpr hf)]

theorem hash_step_overflow {max ib : Nat} {acht : acolorhash_table} {px : rgb_pixel}
    {b : ℚ}
    (hnf : posterized ib px ∉ colors_of (acht.buckets (posterized ib px % HASH_SIZE)))
    (hover : max < acht.colors + 1) :
    hash_step max ib acht px b = none := by
  unfold hash_step
  rw [if_neg (fun hc => hnf ((any_color_iff _ _).mp hc)), if_pos hover]

theorem hash_step_new {max ib : Nat} {acht : acolorhash_table} {px : rgb_pixel} {b : ℚ}
    (hnf : posterized ib px ∉ colors_of (acht.buckets (posterized ib px % HASH_SIZE)))
    (hroom : acht.colors + 1 ≤ max) :
    hash_step max ib acht px b = some
      ⟨Function.update acht.buckets (posterized ib px % HASH_SIZE)
          (⟨posterized ib px, b⟩ :: acht.buckets (posterized ib px % HASH_SIZE)),
        acht.colors + 1⟩ := by
  unfold hash_step
  rw [if_neg (fun hc => hnf ((any_color_iff _ _).mp hc)),
    if_neg (by omega : ¬max < acht.colors + 1)]

/-! ## Preservation of the tracking invariant -/

theorem tracks_nil (ib : Nat) : Tracks ib [] empty_table := by
  have hitems : table_items empty_table = [] := by
    unfold empty_table
    exact table_items_const_nil 0
  refine ⟨?_, ?_, ?_, ?_, ?_, ?_⟩
  · intro h achl hmem
    exact absurd hmem (List.not_mem_nil achl)
  · intro h
    exact List.nodup_nil
  · show (0 : Nat) = _
    unfold table_colors
    rw [hitems, colors_of_nil]
    simp
  · unfold table_colors
    rw [hitems, colors_of_nil]
    simp
  · intro c
    rw [hitems, weight_for_nil]
    rfl
  · rw [hitems, weight_sum_nil]
    rfl

theorem tracks_found {ib : Nat} {pbs : List (rgb_pixel × ℚ)} {acht : acolorhash_table}
    {px : rgb_pixel} {b : ℚ} (ht : Tracks ib pbs acht)
    (hf : posterized ib px ∈ colors_of (acht.buckets (posterized ib px % HASH_SIZE))) :
    Tracks ib (pbs ++ [(px, b)])
      { acht with
        buckets := Function.update acht.buckets (posterized ib px % HASH_SIZE)
          (add_boost (posterized ib px) b
            (acht.buckets (posterized ib px % HASH_SIZE))) } := by
  have hh0 : posterized ib px % HASH_SIZE < HASH_SIZE := Nat.mod_lt _ HASH_SIZE_pos
  have hold := table_items_split acht hh0
  have hnew :
      table_items
        { acht with
          buckets := Function.update acht.buckets (posterized ib px % HASH_SIZE)
            (add_boost (posterized ib px) b
              (acht.buckets (posterized ib px % HASH_SIZE))) } =
        items_lt acht.buckets (posterized ib px % HASH_SIZE) ++
          add_boost (posterized ib px) b
            (acht.buckets (posterized ib px % HASH_SIZE)) ++
          items_gt acht.buckets (posterized ib px % HASH_SIZE) :=
    table_items_update hh0 _ _ _
  have hcolors :
      colors_of
        (table_items
          { acht with
            buckets := Function.update acht.buckets (posterized ib px % HASH_SIZE)
              (add_boost (posterized ib px) b
                (acht.buckets (posterized ib px % HASH_SIZE))) }) =
        colors_of (table_items acht) := by
    rw [hnew, hold, colors_of_append, colors_of_append, colors_of_append,
      colors_of_append, add_boost_colors]
  have htc :
      table_colors
        { acht with
          buckets := Function.update acht.buckets (posterized ib px % HASH_SIZE)
            (add_boost (posterized ib px) b
              (acht.buckets (posterized ib px % HASH_SIZE))) } =
        table_colors acht := by
    unfold table_colors
    rw [hcolors]
  have hmem : posterized ib px ∈ table_colors acht :=
    (mem_table_colors ht.hash_ok _).mpr hf
  refine ⟨?_, ?_, ?_, ?_, ?_, ?_⟩
  · intro h achl hmem2
    by_cases hhh : h = posterized ib px % HASH_SIZE
    · subst hhh
      dsimp only at hmem2
      rw [Function.update_same] at hmem2
      have hc : achl.color ∈ colors_of
          (acht.buckets (posterized ib px % HASH_SIZE)) := by
        rw [← add_boost_colors (posterized ib px) b]
        exact List.mem_map.mpr ⟨achl, hmem2, rfl⟩
      rcases List.mem_map.mp hc with ⟨a0, ha0, he⟩
      rw [← he]
      exact ht.hash_ok _ a0 ha0
    · dsimp only at hmem2
      rw [Function.update_noteq hhh] at hmem2
      exact ht.hash_ok h achl hmem2
  · intro h
    by_cases hhh : h = posterized ib px % HASH_SIZE
    · subst hhh
      dsimp only
      rw [Function.update_same, add_boost_colors]
      exact ht.chains_nodup _
    · dsimp only
      rw [Function.update_noteq hhh]
      exact ht.chains_nodup h
  · show acht.colors = _
    rw [htc]
    exact ht.count_eq
  · rw [htc, ht.colors_eq, List.map_append, List.toFinset_append]
    have : ((([(px, b)]).map fun pb => posterized ib pb.1).toFinset : Finset Nat) =
        {posterized ib px} := by simp
    rw [this]
    rw [ht.colors_eq] at hmem
    exact (Finset.union_eq_left.mpr (Finset.singleton_subset_iff.mpr hmem)).symm
  · intro c
    have holdw := ht.weight_eq c
    rw [hold, weight_for_append, weight_for_append] at holdw
    rw [hnew, weight_for_append, weight_for_append,
      add_boost_weight_for (posterized ib px) b c _ hf,
      boost_sum_for_append, boost_sum_for_single, ← holdw]
    by_cases hcl : c = posterized ib px
    · rw [if_pos hcl, if_pos hcl.symm]
      ring
    · rw [if_neg hcl, if_neg fun he => hcl he.symm]
      ring
  · have holdt := ht.total_eq
    rw [hold, weight_sum_append, weight_sum_append] at holdt
    rw [hnew, weight_sum_append, weight_sum_append,
      add_boost_weight_sum (posterized ib px) b _ hf,
      boost_total_append, boost_total_single, ← holdt]
    ring

theorem tracks_new {ib : Nat} {pbs : List (rgb_pixel × ℚ)} {acht : acolorhash_table}
    {px : rgb_pixel} {b : ℚ} (ht : Tracks ib pbs acht)
    (hnf : posterized ib px ∉ colors_of (acht.buckets (posterized ib px % HASH_SIZE))) :
    Tracks ib (pbs ++ [(px, b)])
      ⟨Function.update acht.buckets (posterized ib px % HASH_SIZE)
          (⟨posterized ib px, b⟩ :: acht.buckets (posterized ib px % HASH_SIZE)),
        acht.colors + 1⟩ := by
  have hh0 : posterized ib px % HASH_SIZE < HASH_SIZE := Nat.mod_lt _ HASH_SIZE_pos
  have hold := table_items_split acht hh0
  have hnew :
      table_items
        ⟨Function.update acht.buckets (posterized ib px % HASH_SIZE)
            (⟨posterized ib px, b⟩ :: acht.buckets (posterized ib px % HASH_SIZE)),
          acht.colors + 1⟩ =
        items_lt acht.buckets (posterized ib px % HASH_SIZE) ++
          (⟨posterized ib px, b⟩ :: acht.buckets (posterized ib px % HASH_SIZE)) ++
          items_gt acht.buckets (posterized ib px % HASH_SIZE) :=
    table_items_update hh0 _ _ _
  have hmem : posterized ib px ∉ table_colors acht := fun hm =>
    hnf ((mem_table_colors ht.hash_ok _).mp hm)
  have htc :
      table_colors
        ⟨Function.update acht.buckets (posterized ib px % HASH_SIZE)
            (⟨posterized ib px, b⟩ :: acht.buckets (posterized ib px % HASH_SIZE)),
          acht.colors + 1⟩ =
        insert (posterized ib px) (table_colors acht) := by
    unfold table_colors
    rw [hnew, hold, colors_of_append, colors_of_append, colors_of_append,
      colors_of_append, colors_of_cons]
    ext x
    simp [List.toFinset_append]
  refine ⟨?_, ?_, ?_, ?_, ?_, ?_⟩
  · intro h achl hmem2
    by_cases hhh : h = posterized ib px % HASH_SIZE
    · subst hhh
      dsimp only at hmem2
      rw [Function.update_same] at hmem2
      rcases List.mem_cons.mp hmem2 with rfl | hmem3
      · rfl
      · exact ht.hash_ok _ achl hmem3
    · dsimp only at hmem2
      rw [Function.update_noteq hhh] at hmem2
      exact ht.hash_ok h achl hmem2
  · intro h
    by_cases hhh : h = posterized ib px % HASH_SIZE
    · subst hhh
      dsimp only
      rw [Function.update_same, colors_of_cons]
      exact List.nodup_cons.mpr ⟨hnf, ht.chains_nodup _⟩
    · dsimp only
      rw [Function.update_noteq hhh]
      exact ht.chains_nodup h
  · show acht.colors + 1 = _
    rw [htc, Finset.card_insert_of_not_mem hmem, ht.count_eq]
  · rw [htc, ht.colors_eq, List.map_append, List.toFinset_append]
    have : ((([(px, b)]).map fun pb => posterized ib pb.1).toFinset : Finset Nat) =
        {posterized ib px} := by simp
    rw [this]
    rw [Finset.union_comm]
    exact Finset.insert_eq _ _
  · intro c
    have holdw := ht.weight_eq c
    rw [hold, weight_for_append, weight_for_append] at holdw
    rw [hnew, weight_for_append, weight_for_append, weight_for_cons,
      boost_sum_for_append, boost_sum_for_single, ← holdw]
    by_cases hcl : posterized ib px = c
    · rw [if_pos hcl]
      ring
    · rw [if_neg hcl]
      ring
  · have holdt := ht.total_eq
    rw [hold, weight_sum_append, weight_sum_append] at holdt
    rw [hnew, weight_sum_append, weight_sum_append, weight_sum_cons,
      boost_total_append, boost_total_single, ← holdt]
    ring

/-! ## The scan as a whole -/

theorem run_hash_spec (max ib : Nat) :
    ∀ (rest pbs : List (rgb_pixel × ℚ)) (acht : acolorhash_table),
      Tracks ib pbs acht → acht.colors ≤ max →
      (run_hash max ib acht rest = none ↔
        max < (((pbs ++ rest).map fun pb => posterized ib pb.1).toFinset).card) ∧
      (∀ acht2, run_hash max ib acht rest = some acht2 →
        Tracks ib (pbs ++ rest) acht2 ∧ acht2.colors ≤ max)
  | [], pbs, acht, ht, hle => by
    constructor
    · rw [show run_hash max ib acht [] = some acht from rfl]
      simp only [List.append_nil]
      constructor
      · intro h
        exact absurd h (by simp)
      · intro hcard
        exfalso
        rw [← ht.colors_eq, ← ht.count_eq] at hcard
        omega
    · intro acht2 h2
      rw [show run_hash max ib acht [] = some acht from rfl] at h2
      injection h2 with h2
      subst h2
      simpa using ⟨ht, hle⟩
  | (px, b) :: rest, pbs, acht, ht, hle => by
    have hsplit : pbs ++ (px, b) :: rest = (pbs ++ [(px, b)]) ++ rest := by simp
    by_cases hf : posterized ib px ∈ colors_of (acht.buckets (posterized ib px % HASH_SIZE))
    · have hstep := @hash_step_found max ib acht px b hf
      have ht2 := @tracks_found ib pbs acht px b ht hf
      have hrun : run_hash max ib acht ((px, b) :: rest) =
          run_hash max ib
            { acht with
              buckets := Function.update acht.buckets (posterized ib px % HASH_SIZE)
                (add_boost (posterized ib px) b
                  (acht.buckets (posterized ib px % HASH_SIZE))) } rest := by
        rw [run_hash, hstep]
      rcases run_hash_spec max ib rest (pbs ++ [(px, b)]) _ ht2 hle with ⟨hiff, hsome⟩
      refine ⟨?_, ?_⟩
      · rw [hrun, hiff, hsplit]
      · intro acht2 h2
        rw [hrun] at h2
        rw [hsplit]
        exact hsome acht2 h2
    · by_cases hroom : acht.colors + 1 ≤ max
      · have hstep := @hash_step_new max ib acht px b hf hroom
        have ht2 := @tracks_new ib pbs acht px b ht hf
        have hrun : run_hash max ib acht ((px, b) :: rest) =
            run_hash max ib
              ⟨Function.update acht.buckets (posterized ib px % HASH_SIZE)
                  (⟨posterized ib px, b⟩ ::
                    acht.buckets (posterized ib px % HASH_SIZE)),
                acht.colors + 1⟩ rest := by
          rw [run_hash, hstep]
        rcases run_hash_spec max ib rest (pbs ++ [(px, b)]) _ ht2 hroom with ⟨hiff, hsome⟩
        refine ⟨?_, ?_⟩
        · rw [hrun, hiff, hsplit]
        · intro acht2 h2
          rw [hrun] at h2
          rw [hsplit]
          exact hsome acht2 h2
      · have hover : max < acht.colors + 1 := by omega
        have hstep := @hash_step_overflow max ib acht px b hf hover
        have hrun : run_hash max ib acht ((px, b) :: rest) = none := by
          rw [run_hash, hstep]
        have hnotmem : posterized ib px ∉ table_colors acht := fun hm =>
          hf ((mem_table_colors ht.hash_ok _).mp hm)
        refine ⟨?_, ?_⟩
        · rw [hrun]
          refine iff_of_true rfl ?_
          have hsub :
              insert (posterized ib px)
                  ((pbs.map fun pb => posterized ib pb.1).toFinset) ⊆
                ((pbs ++ (px, b) :: rest).map fun pb => posterized ib pb.1).toFinset := by
            rw [Finset.insert_subset_iff]
            constructor
            · rw [List.mem_toFinset]
              refine List.mem_map.mpr ⟨(px, b), ?_, rfl⟩
              simp
            · intro x hx
              rw [List.mem_toFinset] at hx ⊢
              rcases List.mem_map.mp hx with ⟨pb, hpb, rfl⟩
              exact List.mem_map.mpr ⟨pb, by simp [hpb], rfl⟩
          have hcard : acht.colors + 1 ≤
              (insert (posterized ib px)
                ((pbs.map fun pb => posterized ib pb.1).toFinset)).card := by
            rw [Finset.card_insert_of_not_mem (by rw [← ht.colors_eq]; exact hnotmem),
              ← ht.colors_eq, ← ht.count_eq]
          have := Finset.card_le_card hsub
          omega
        · intro acht2 h2
          rw [hrun] at h2
          exact Option.noConfusion h2

theorem pixel_seq_posterized (apixels : Nat → Nat → rgb_pixel) (cols rows ib : Nat)
    (imp : Option (Nat → ℚ)) :
    (pixel_seq apixels cols rows imp).map (fun pb => posterized ib pb.1) =
      (image_pixels apixels cols rows).map (posterized ib) := by
  unfold pixel_seq image_pixels
  rw [List.map_flatMap, List.map_flatMap]
  refine List.flatMap_congr fun row _ => ?_
  rw [List.map_map, List.map_map]
  rfl

theorem computeacolorhash_spec (apixels : Nat → Nat → rgb_pixel)
    (cols rows max ib : Nat) (imp : Option (Nat → ℚ)) :
    (pam_computeacolorhash apixels cols rows max ib imp = none ↔
      max < (distinct_posterized ib (image_pixels apixels cols rows)).card) ∧
    (∀ acht, pam_computeacolorhash apixels cols rows max ib imp = some acht →
      Tracks ib (pixel_seq apixels cols rows imp) acht ∧ acht.colors ≤ max) := by
  have hz : empty_table.colors ≤ max := Nat.zero_le max
  rcases run_hash_spec max ib (pixel_seq apixels cols rows imp) [] empty_table
    (tracks_nil ib) hz with ⟨hiff, hsome⟩
  constructor
  · unfold pam_computeacolorhash
    rw [hiff, List.nil_append]
    unfold distinct_posterized
    rw [pixel_seq_posterized]
  · intro acht h
    have := hsome acht h
    rwa [List.nil_append] at this

theorem computeacolorhist_cases (apixels : Nat → Nat → rgb_pixel)
    (cols rows max ib : Nat) (imp : Option (Nat → ℚ)) :
    (pam_computeacolorhist apixels cols rows max ib imp = none ↔
      max < (distinct_posterized ib (image_pixels apixels cols rows)).card) ∧
    (∀ hist, pam_computeacolorhist apixels cols rows max ib imp = some hist →
      ∃ acht, pam_computeacolorhash apixels cols rows max ib imp = some acht ∧
        hist = pam_acolorhashtoacolorhist acht ∧
        Tracks ib (pixel_seq apixels cols rows imp) acht ∧ acht.colors ≤ max) := by
  rcases computeacolorhash_spec apixels cols rows max ib imp with ⟨hiff, hsome⟩
  constructor
  · unfold pam_computeacolorhist
    rw [Option.map_eq_none', hiff]
  · intro hist h
    unfold pam_computeacolorhist at h
    rcases Option.map_eq_some'.mp h with ⟨acht, hsome2, hconv⟩
    exact ⟨acht, hsome2, hconv.symm, hsome acht hsome2⟩

/-! ## Facts about the flattened histogram -/

theorem hist_entry_weight {ib : Nat} {pbs : List (rgb_pixel × ℚ)}
    {acht : acolorhash_table} (ht : Tracks ib pbs acht) :
    ∀ e ∈ pam_acolorhashtoacolorhist acht,
      e.adjusted_weight = e.perceptual_weight ∧
      e.perceptual_weight = boost_sum_for ib e.color pbs := by
  intro e he
  unfold pam_acolorhashtoacolorhist at he
  rcases List.mem_map.mp he with ⟨achl, hmem, rfl⟩
  refine ⟨rfl, ?_⟩
  show achl.perceptual_weight = boost_sum_for ib achl.color pbs
  have hnd := table_colors_nodup ht.hash_ok ht.chains_nodup
  rw [← ht.weight_eq achl.color]
  exact (weight_for_self _ hnd achl hmem).symm

theorem hist_weight_sum {ib : Nat} {pbs : List (rgb_pixel × ℚ)}
    {acht : acolorhash_table} (ht : Tracks ib pbs acht) :
    ((pam_acolorhashtoacolorhist acht).map fun e => e.perceptual_weight).sum =
      boost_total pbs := by
  unfold pam_acolorhashtoacolorhist
  rw [List.map_map]
  exact ht.total_eq

theorem hist_colors_nodup {ib : Nat} {pbs : List (rgb_pixel × ℚ)}
    {acht : acolorhash_table} (ht : Tracks ib pbs acht) :
    ((pam_acolorhashtoacolorhist acht).map fun e => e.color).Nodup := by
  unfold pam_acolorhashtoacolorhist
  rw [List.map_map]
  have hfun : ((fun e : hist_item => e.color) ∘ fun achl : acolorhist_list_item =>
      (⟨achl.color, achl.perceptual_weight, achl.perceptual_weight⟩ : hist_item)) =
      fun achl : acolorhist_list_item => achl.color := rfl
  rw [hfun, show ((table_items acht).map fun achl => achl.color) =
    colors_of (table_items acht) from rfl]
  exact table_colors_nodup ht.hash_ok ht.chains_nodup

theorem hist_length {ib : Nat} {pbs : List (rgb_pixel × ℚ)}
    {acht : acolorhash_table} (ht : Tracks ib pbs acht) :
    (pam_acolorhashtoacolorhist acht).length = (table_colors acht).card := by
  have hnd := table_colors_nodup ht.hash_ok ht.chains_nodup
  unfold pam_acolorhashtoacolorhist
  rw [List.length_map]
  unfold table_colors
  rw [List.toFinset_card_of_nodup hnd]
  exact (List.length_map _ _).symm

/-! ## Evaluating the total boost of the pixel sequence -/

theorem sum_map_one (n : Nat) : ((List.range n).map fun _ => (1 : ℚ)).sum = n := by
  induction n with
  | zero => simp
  | succ m ih =>
    rw [List.range_succ, List.map_append, List.sum_append, ih]
    push_cast
    simp

theorem sum_row_major (g : Nat → ℚ) (cols : Nat) :
    ∀ rows,
      (((List.range rows).flatMap fun row =>
          (List.range cols).map fun col => g (row * cols + col)).sum) =
        ((List.range (rows * cols)).map g).sum
  | 0 => by simp
  | r + 1 => by
    rw [List.range_succ, List.flatMap_append, List.sum_append, sum_row_major g cols r]
    have he : (r + 1) * cols = r * cols + cols := by ring
    rw [he, List.range_add, List.map_append, List.sum_append]
    congr 1
    rw [List.flatMap_cons, List.flatMap_nil, List.append_nil, List.map_map]
    rfl

theorem sum_flatMap_one (cols : Nat) :
    ∀ rows, (((List.range rows).flatMap fun _ =>
        (List.range cols).map fun _ => (1 : ℚ)).sum) = ((rows * cols : Nat) : ℚ)
  | 0 => by simp
  | r + 1 => by
    rw [List.range_succ, List.flatMap_append, List.sum_append, sum_flatMap_one cols r]
    rw [List.flatMap_cons, List.flatMap_nil, List.append_nil, sum_map_one]
    push_cast
    ring

theorem boost_total_none (apixels : Nat → Nat → rgb_pixel) (cols rows : Nat) :
    boost_total (pixel_seq apixels cols rows none) = ((cols * rows : Nat) : ℚ) := by
  unfold boost_total pixel_seq
  rw [List.map_flatMap]
  have hc : ∀ row ∈ List.range rows,
      (List.map Prod.snd ((List.range cols).map fun col =>
        ((apixels row col, boost_at none (row * cols + col)) : rgb_pixel × ℚ))) =
      (List.range cols).map fun _ => (1 : ℚ) := by
    intro row _
    rw [List.map_map]
    rfl
  rw [List.flatMap_congr hc, sum_flatMap_one cols rows]
  push_cast
  ring

theorem boost_total_some (apixels : Nat → Nat → rgb_pixel) (cols rows : Nat)
    (f : Nat → ℚ) :
    boost_total (pixel_seq apixels cols rows (some f)) =
      ((List.range (cols * rows)).map fun k => 1 / 2 + f k).sum := by
  unfold boost_total pixel_seq
  rw [List.map_flatMap]
  have hc : ∀ row ∈ List.range rows,
      (List.map Prod.snd ((List.range cols).map fun col =>
        ((apixels row col, boost_at (some f) (row * cols + col)) : rgb_pixel × ℚ))) =
      (List.range cols).map fun col => (fun k => 1 / 2 + f k) (row * cols + col) := by
    intro row _
    rw [List.map_map]
    rfl
  rw [List.flatMap_congr hc, sum_row_major (fun k => 1 / 2 + f k) cols rows,
    Nat.mul_comm rows cols]

/-! ## Posterization mask facts -/

theorem channel_mask_of_ge_8 {ib : Nat} (h : 8 ≤ ib) : channel_mask ib = 0 := by
  unfold channel_mask
  have h255 : (255 : Nat) < 2 ^ ib :=
    lt_of_lt_of_le (by norm_num) (Nat.pow_le_pow_right (by norm_num) h)
  rw [Nat.shiftRight_eq_div_pow, Nat.div_eq_of_lt h255, Nat.zero_shiftLeft]

theorem posterize_mask_of_ge_8 {ib : Nat} (h : 8 ≤ ib) : posterize_mask ib = 0 := by
  unfold posterize_mask
  rw [channel_mask_of_ge_8 h]
  decide

theorem posterized_of_ge_8 {ib : Nat} (h : 8 ≤ ib) (p : rgb_pixel) :
    posterized ib p = 0 := by
  unfold posterized
  rw [posterize_mask_of_ge_8 h, Nat.and_zero]

theorem channel_mask_min8 (ib : Nat) : channel_mask ib = channel_mask (min ib 8) := by
  rcases le_total ib 8 with h | h
  · rw [min_eq_left h]
  · rw [min_eq_right h, channel_mask_of_ge_8 h]
    decide

theorem posterize_mask_min8 (ib : Nat) :
    posterize_mask ib = posterize_mask (min ib 8) := by
  unfold posterize_mask
  rw [← channel_mask_min8]

theorem posterize_mask_absorb_lt :
    ∀ a < 9, ∀ b < 9, a ≤ b →
      posterize_mask b &&& posterize_mask a = posterize_mask b := by
  decide

theorem posterized_absorb {ib1 ib2 : Nat} (h : ib1 ≤ ib2) (p : rgb_pixel) :
    posterized ib2 p = posterized ib1 p &&& posterize_mask ib2 := by
  unfold posterized
  rw [Nat.land_assoc]
  congr 1
  rw [posterize_mask_min8 ib1, posterize_mask_min8 ib2, Nat.land_comm]
  exact (posterize_mask_absorb_lt (min ib1 8) (by omega) (min ib2 8) (by omega)
    (by omega)).symm

theorem distinct_posterized_mono {ib1 ib2 : Nat} (h : ib1 ≤ ib2)
    (pxs : List rgb_pixel) :
    (distinct_posterized ib2 pxs).card ≤ (distinct_posterized ib1 pxs).card := by
  unfold distinct_posterized
  have hmap : pxs.map (posterized ib2) =
      (pxs.map (posterized ib1)).map fun x => x &&& posterize_mask ib2 := by
    rw [List.map_map]
    exact List.map_congr_left fun p _ => posterized_absorb h p
  rw [hmap, toFinset_map_image]
  exact Finset.card_image_le

theorem mem_image_pixels (apixels : Nat → Nat → rgb_pixel) {cols rows : Nat}
    (hc : 0 < cols) (hr : 0 < rows) :
    apixels 0 0 ∈ image_pixels apixels cols rows := by
  unfold image_pixels
  exact List.mem_flatMap.mpr
    ⟨0, List.mem_range.mpr hr, List.mem_map.mpr ⟨0, List.mem_range.mpr hc, rfl⟩⟩

theorem distinct_posterized_ge_8 {ib : Nat} (h : 8 ≤ ib)
    (apixels : Nat → Nat → rgb_pixel) {cols rows : Nat}
    (hc : 0 < cols) (hr : 0 < rows) :
    distinct_posterized ib (image_pixels apixels cols rows) = {0} := by
  unfold distinct_posterized
  ext x
  simp only [List.mem_toFinset, List.mem_map, Finset.mem_singleton]
  constructor
  · rintro ⟨p, _, rfl⟩
    exact posterized_of_ge_8 h p
  · rintro rfl
    exact ⟨apixels 0 0, mem_image_pixels apixels hc hr, posterized_of_ge_8 h _⟩

/-! ## The nearest-color matcher -/

theorem bci_replace_iff (iebug : Bool) (cand : f_pixel) (newdist dist : ℚ) :
    bci_replace iebug cand newdist dist = true ↔
      newdist < dist ∧ (iebug = false ∨ 1 ≤ cand.a ∨ 1 / 1024 ≤ dist - newdist) := by
  unfold bci_replace
  split_ifs with h1 h2 h3
  · refine iff_of_false (by simp) ?_
    rintro ⟨-, hor⟩
    rw [Bool.and_eq_true, decide_eq_true_eq] at h2
    rcases hor with hie | ho | himp
    · rw [h2.1] at hie
      exact Bool.noConfusion hie
    · linarith [h2.2]
    · linarith
  · exact iff_of_true rfl ⟨h1, Or.inr (Or.inr (by linarith))⟩
  · refine iff_of_true rfl ⟨h1, ?_⟩
    rw [Bool.and_eq_true, decide_eq_true_eq] at h2
    rcases Bool.eq_false_or_eq_true iebug with hie | hie
    · refine Or.inr (Or.inl ?_)
      by_contra hlt
      push_neg at hlt
      exact h2 ⟨hie, hlt⟩
    · exact Or.inl hie
  · exact iff_of_false (by simp) fun hc => h1 hc.1

theorem mem_enumFrom_getElem? {α : Type*} {p : Nat × α} {l : List α} {n : Nat}
    (h : p ∈ l.enumFrom n) : n ≤ p.1 ∧ l[p.1 - n]? = some p.2 := by
  rcases p with ⟨i, x⟩
  have h3 := List.mem_enumFrom h
  refine ⟨h3.1, ?_⟩
  have hlt : i - n < l.length := by omega
  rw [List.getElem?_eq_getElem hlt]
  exact congrArg some (by rw [h3.2.2])

theorem bci_loop_inv (cd : f_pixel → f_pixel → ℚ) (px : f_pixel) (iebug : Bool)
    (pal : List colormap_item) :
    ∀ (l : List (Nat × colormap_item)) (acc : Nat × ℚ),
      (∀ p ∈ l, pal[p.1]? = some p.2) →
      (∃ item, pal[acc.1]? = some item ∧ acc.2 = cd px item.acolor) →
      ∃ item, pal[(bci_loop cd px iebug l acc).1]? = some item ∧
        (bci_loop cd px iebug l acc).2 = cd px item.acolor
  | [], acc, _, hacc => hacc
  | (i, it) :: rest, (ind, dist), hl, hacc => by
    rw [bci_loop]
    apply bci_loop_inv cd px iebug pal rest _
      fun p hp => hl p (List.mem_cons_of_mem _ hp)
    by_cases hr : bci_replace iebug it.acolor (cd px it.acolor) dist = true
    · rw [if_pos hr]
      exact ⟨it, hl (i, it) (List.mem_cons_self _ _), rfl⟩
    · rw [if_neg hr]
      exact hacc

theorem best_color_index_some (cd : f_pixel → f_pixel → ℚ) (px : f_pixel)
    (map : colormap) (mov : ℚ) (hne : map.palette ≠ []) :
    ∃ ind dist item, best_color_index cd px map mov = some (ind, dist) ∧
      map.palette[ind]? = some item ∧ dist = cd px item.acolor := by
  rcases hmap : map.palette with - | ⟨first, rest⟩
  · exact absurd hmap hne
  · unfold best_color_index
    rw [hmap]
    have hl : ∀ p ∈ rest.enumFrom 1, (first :: rest)[p.1]? = some p.2 := by
      intro p hp
      rcases mem_enumFrom_getElem? hp with ⟨h1, h2⟩
      have he : p.1 = (p.1 - 1) + 1 := by omega
      rw [he, List.getElem?_cons_succ]
      exact h2
    have hacc : ∃ item, (first :: rest)[(0 : Nat)]? = some item ∧
        cd px first.acolor = cd px item.acolor :=
      ⟨first, List.getElem?_cons_zero, rfl⟩
    rcases bci_loop_inv cd px (decide (px.a > mov)) (first :: rest)
      (rest.enumFrom 1) (0, cd px first.acolor) hl hacc with ⟨item, hit, hdist⟩
    exact ⟨_, _, item, rfl, hit, hdist⟩

theorem best_color_index_single (cd : f_pixel → f_pixel → ℚ) (px : f_pixel)
    (item : colormap_item) (mov : ℚ) :
    best_color_index cd px ⟨[item]⟩ mov = some (0, cd px item.acolor) := rfl

theorem best_color_index_empty (cd : f_pixel → f_pixel → ℚ) (px : f_pixel)
    (mov : ℚ) : best_color_index cd px ⟨[]⟩ mov = none := rfl

theorem best_two_entry (cd : f_pixel → f_pixel → ℚ) (px e0 e1 : f_pixel)
    (mov : ℚ) :
    best_color_index cd px ⟨[⟨e0⟩, ⟨e1⟩]⟩ mov =
      some (if bci_replace (decide (px.a > mov)) e1 (cd px e1) (cd px e0) = true
        then (1, cd px e1) else (0, cd px e0)) := by
  unfold best_color_index
  show some (bci_loop cd px (decide (px.a > mov))
    (List.enumFrom 1 [⟨e1⟩]) (0, cd px e0)) = _
  rw [show List.enumFrom 1 [(⟨e1⟩ : colormap_item)] = [(1, ⟨e1⟩)] from rfl,
    bci_loop]
  by_cases hr : bci_replace (decide (px.a > mov)) e1 (cd px e1) (cd px e0) = true
  · rw [if_pos hr]
    rfl
  · rw [if_neg hr]
    rfl

theorem best_two_entry_sub_eps (cd : f_pixel → f_pixel → ℚ) (px e0 e1 : f_pixel)
    (mov : ℚ) (hie : mov < px.a) (h1 : e1.a < 1) (hlt : cd px e1 < cd px e0)
    (heps : cd px e0 - cd px e1 < 1 / 1024) :
    best_color_index cd px ⟨[⟨e0⟩, ⟨e1⟩]⟩ mov = some (0, cd px e0) := by
  rw [best_two_entry]
  have hr : bci_replace (decide (px.a > mov)) e1 (cd px e1) (cd px e0) = false := by
    unfold bci_replace
    rw [if_pos hlt]
    rw [if_pos (show (decide (px.a > mov) && decide (e1.a < 1)) = true by
      rw [Bool.and_eq_true, decide_eq_true_eq, decide_eq_true_eq]
      exact ⟨hie, h1⟩)]
    rw [if_pos (show cd px e1 + 1 / 1024 > cd px e0 by linarith)]
  rw [hr]
  rfl

theorem best_two_entry_super_eps (cd : f_pixel → f_pixel → ℚ) (px e0 e1 : f_pixel)
    (mov : ℚ) (heps : 1 / 1024 < cd px e0 - cd px e1) :
    best_color_index cd px ⟨[⟨e0⟩, ⟨e1⟩]⟩ mov = some (1, cd px e1) := by
  rw [best_two_entry]
  have hr : bci_replace (decide (px.a > mov)) e1 (cd px e1) (cd px e0) = true := by
    rw [bci_replace_iff]
    exact ⟨by linarith, Or.inr (Or.inr (by linarith))⟩
  rw [hr]
  rfl

/-! ## Remaining helpers -/

theorem hist_color_mem (acht : acolorhash_table) :
    ∀ e ∈ pam_acolorhashtoacolorhist acht, e.color ∈ table_colors acht := by
  intro e he
  unfold pam_acolorhashtoacolorhist at he
  rcases List.mem_map.mp he with ⟨achl, hmem, rfl⟩
  unfold table_colors
  rw [List.mem_toFinset]
  exact List.mem_map.mpr ⟨achl, hmem, rfl⟩

theorem pixel_seq_toFinset (apixels : Nat → Nat → rgb_pixel) (cols rows ib : Nat)
    (imp : Option (Nat → ℚ)) :
    ((pixel_seq apixels cols rows imp).map fun pb => posterized ib pb.1).toFinset =
      distinct_posterized ib (image_pixels apixels cols rows) := by
  unfold distinct_posterized
  rw [pixel_seq_posterized]

theorem eval_hash_1x1 :
    pam_computeacolorhash (fun _ _ => (⟨0, 0, 0, 0⟩ : rgb_pixel)) 1 1 1 0 none =
      some ⟨Function.update (fun _ => []) 0 [⟨0, 1⟩], 1⟩ := rfl

theorem eval_hist_1x1 :
    pam_computeacolorhist (fun _ _ => (⟨0, 0, 0, 0⟩ : rgb_pixel)) 1 1 1 0 none =
      some [⟨0, 1, 1⟩] := by
  unfold pam_computeacolorhist
  rw [eval_hash_1x1]
  simp only [Option.map_some']
  rw [show pam_acolorhashtoacolorhist ⟨Function.update (fun _ => []) 0 [⟨0, 1⟩], 1⟩ =
    (table_items ⟨Function.update (fun _ => []) 0 [⟨0, 1⟩], 1⟩).map (fun achl =>
      ⟨achl.color, achl.perceptual_weight, achl.perceptual_weight⟩) from rfl]
  rw [table_items_single (by norm_num [HASH_SIZE]) _ _]
  rfl

/-! ## The claims -/

/-- C1 (amended): in `best_color_index`, a candidate at index `i ≥ 1`
replaces the current best iff its distance is strictly smaller than the
current best's AND (the query is not opaque-biased, or the candidate's
alpha is at least 1, or the candidate's improvement over the current best
is at least `1/1024` — the code accepts an improvement of exactly
`1/1024`, `newdist + 1/1024 > dist` being strict).  For the claim's
2-entry palette (entry 0 alpha 1, entry 1 alpha 1/2, opaque-biased
query): entry 1 closer by less than `1/1024` yields index 0, closer by
more than `1/1024` yields index 1. -/
theorem C1_replace_condition :
    (∀ (px : f_pixel) (mov : ℚ) (cand : f_pixel) (newdist dist : ℚ),
      bci_replace (decide (px.a > mov)) cand newdist dist = true ↔
        newdist < dist ∧
          (px.a ≤ mov ∨ 1 ≤ cand.a ∨ 1 / 1024 ≤ dist - newdist)) ∧
    (∀ (cd : f_pixel → f_pixel → ℚ) (px e0 e1 : f_pixel) (mov : ℚ),
      mov < px.a → e0.a = 1 → e1.a = 1 / 2 →
      cd px e1 < cd px e0 → cd px e0 - cd px e1 < 1 / 1024 →
      best_color_index cd px ⟨[⟨e0⟩, ⟨e1⟩]⟩ mov = some (0, cd px e0)) ∧
    (∀ (cd : f_pixel → f_pixel → ℚ) (px e0 e1 : f_pixel) (mov : ℚ),
      mov < px.a → e0.a = 1 → e1.a = 1 / 2 →
      1 / 1024 < cd px e0 - cd px e1 →
      best_color_index cd px ⟨[⟨e0⟩, ⟨e1⟩]⟩ mov = some (1, cd px e1)) := by
  refine ⟨?_, ?_, ?_⟩
  · intro px mov cand newdist dist
    rw [bci_replace_iff]
    constructor
    · rintro ⟨h1, h2⟩
      refine ⟨h1, ?_⟩
      rcases h2 with h | h | h
      · exact Or.inl (not_lt.mp (by rwa [decide_eq_false_iff_not] at h))
      · exact Or.inr (Or.inl h)
      · exact Or.inr (Or.inr h)
    · rintro ⟨h1, h2⟩
      refine ⟨h1, ?_⟩
      rcases h2 with h | h | h
      · exact Or.inl (decide_eq_false (not_lt.mpr h))
      · exact Or.inr (Or.inl h)
      · exact Or.inr (Or.inr h)
  · intro cd px e0 e1 mov hie h0 h1 hlt heps
    exact best_two_entry_sub_eps cd px e0 e1 mov hie (by rw [h1]; norm_num) hlt heps
  · intro cd px e0 e1 mov hie h0 h1 heps
    exact best_two_entry_super_eps cd px e0 e1 mov heps

/-- C1 counterexample to the claim as stated: with an opaque-biased
query, a transparent candidate whose improvement is exactly `1/1024`
does replace the incumbent (the code returns index 1), although the
spec's condition — improvement strictly exceeding `1/1024` — is false
there, so the claimed "if and only if" fails. -/
theorem C1_spec_counterexample :
    best_color_index (fun _ c => c.r) ⟨1, 0, 0, 0⟩
        ⟨[⟨⟨1, 2/1024, 0, 0⟩⟩, ⟨⟨1/2, 1/1024, 0, 0⟩⟩]⟩ (1/2) =
      some (1, 1/1024) ∧
    ¬ spec_replace ⟨1, 0, 0, 0⟩ (1/2) ⟨1/2, 1/1024, 0, 0⟩ (1/1024) (2/1024) := by
  constructor
  · norm_num [best_color_index, bci_loop, bci_replace, List.enumFrom]
  · unfold spec_replace
    rintro ⟨-, h⟩
    rcases h with h | h | h <;> norm_num at h

/-- C1 witness: the amended replacement condition, and both 2-entry
palette scenarios, at concrete inputs. -/
theorem C1_replace_condition_witness :
    (bci_replace (decide ((1 : ℚ) > 1/2)) ⟨1/2, 0, 0, 0⟩ (1/2048) (4/1024) = true ↔
      (1 : ℚ)/2048 < 4/1024 ∧
        ((1 : ℚ) ≤ 1/2 ∨ (1 : ℚ) ≤ 1/2 ∨ (1 : ℚ)/1024 ≤ 4/1024 - 1/2048)) ∧
    best_color_index (fun _ c => c.r) ⟨1, 0, 0, 0⟩
      ⟨[⟨⟨1, 2/1024, 0, 0⟩⟩, ⟨⟨1/2, 3/2048, 0, 0⟩⟩]⟩ (1/2) = some (0, 2/1024) ∧
    best_color_index (fun _ c => c.r) ⟨1, 0, 0, 0⟩
      ⟨[⟨⟨1, 2/1024, 0, 0⟩⟩, ⟨⟨1/2, 0, 0, 0⟩⟩]⟩ (1/2) = some (1, 0) :=
  ⟨C1_replace_condition.1 ⟨1, 0, 0, 0⟩ (1/2) ⟨1/2, 0, 0, 0⟩ (1/2048) (4/1024),
   C1_replace_condition.2.1 (fun _ c => c.r) ⟨1, 0, 0, 0⟩ ⟨1, 2/1024, 0, 0⟩
     ⟨1/2, 3/2048, 0, 0⟩ (1/2) (by norm_num) rfl rfl (by norm_num) (by norm_num),
   C1_replace_condition.2.2 (fun _ c => c.r) ⟨1, 0, 0, 0⟩ ⟨1, 2/1024, 0, 0⟩
     ⟨1/2, 0, 0, 0⟩ (1/2) (by norm_num) rfl rfl (by norm_num)⟩

/-- C2: histogram construction fails (returns no histogram) iff the
number of distinct posterized colors of the image exceeds `maxacolors`;
moreover the abort is immediate — as soon as a scanned prefix of the
pixel sequence already has more than `maxacolors` distinct posterized
colors, the scan returns `none` whatever pixels follow. -/
theorem C2_overflow_iff :
    (∀ (apixels : Nat → Nat → rgb_pixel) (cols rows max ib : Nat)
        (imp : Option (Nat → ℚ)),
      pam_computeacolorhist apixels cols rows max ib imp = none ↔
        max < (distinct_posterized ib (image_pixels apixels cols rows)).card) ∧
    (∀ (max ib : Nat) (pbs1 pbs2 : List (rgb_pixel × ℚ)),
      max < ((pbs1.map fun pb => posterized ib pb.1).toFinset).card →
      run_hash max ib empty_table (pbs1 ++ pbs2) = none) := by
  constructor
  · intro apixels cols rows max ib imp
    exact (computeacolorhist_cases apixels cols rows max ib imp).1
  · intro max ib pbs1 pbs2 hover
    rcases run_hash_spec max ib (pbs1 ++ pbs2) [] empty_table (tracks_nil ib)
      (Nat.zero_le max) with ⟨hiff, -⟩
    refine hiff.mpr ?_
    rw [List.nil_append, List.map_append, List.toFinset_append]
    exact lt_of_lt_of_le hover (Finset.card_le_card Finset.subset_union_left)

/-- C2 witness: a 1-color image with cap 0 overflows, and the scan
starting from a 1-pixel prefix with more than 0 distinct colors is
`none` for the empty continuation. -/
theorem C2_overflow_iff_witness :
    pam_computeacolorhist (fun _ _ => ⟨0, 0, 0, 0⟩) 1 1 0 0 none = none ∧
    run_hash 0 0 empty_table ([((⟨0, 0, 0, 0⟩ : rgb_pixel), (1 : ℚ))] ++ []) =
      none := by
  constructor
  · exact (C2_overflow_iff.1 (fun _ _ => ⟨0, 0, 0, 0⟩) 1 1 0 0 none).mpr (by decide)
  · exact C2_overflow_iff.2 0 0 [(⟨0, 0, 0, 0⟩, 1)] [] (by decide)

/-- C3: on success, each histogram entry's `perceptual_weight` is the
boost sum of the pixels whose posterized color it represents; with no
importance map the total is `cols*rows`, and with one it is the sum of
`0.5 + importance_map[k]` over all pixel indices `k`. -/
theorem C3_weight_conservation :
    ∀ (apixels : Nat → Nat → rgb_pixel) (cols rows max ib : Nat)
      (imp : Option (Nat → ℚ)) (hist : List hist_item),
      pam_computeacolorhist apixels cols rows max ib imp = some hist →
      (∀ e ∈ hist, e.perceptual_weight =
        boost_sum_for ib e.color (pixel_seq apixels cols rows imp)) ∧
      (imp = none →
        (hist.map fun e => e.perceptual_weight).sum = ((cols * rows : Nat) : ℚ)) ∧
      (∀ f, imp = some f →
        (hist.map fun e => e.perceptual_weight).sum =
          ((List.range (cols * rows)).map fun k => 1 / 2 + f k).sum) := by
  intro apixels cols rows max ib imp hist hsome
  rcases (computeacolorhist_cases apixels cols rows max ib imp).2 hist hsome with
    ⟨acht, -, h2, ht, -⟩
  rw [h2]
  refine ⟨fun e he => (hist_entry_weight ht e he).2, ?_, ?_⟩
  · rintro rfl
    rw [hist_weight_sum ht, boost_total_none]
  · rintro f rfl
    rw [hist_weight_sum ht, boost_total_some]

/-- C3 witness: the 1×1 image with its single unit-weight entry. -/
theorem C3_weight_conservation_witness :
    (∀ e ∈ [(⟨0, 1, 1⟩ : hist_item)], e.perceptual_weight =
      boost_sum_for 0 e.color (pixel_seq (fun _ _ => ⟨0, 0, 0, 0⟩) 1 1 none)) ∧
    ((none : Option (Nat → ℚ)) = none →
      ([(⟨0, 1, 1⟩ : hist_item)].map fun e => e.perceptual_weight).sum =
        ((1 * 1 : Nat) : ℚ)) ∧
    (∀ f, (none : Option (Nat → ℚ)) = some f →
      ([(⟨0, 1, 1⟩ : hist_item)].map fun e => e.perceptual_weight).sum =
        ((List.range (1 * 1)).map fun k => 1 / 2 + f k).sum) :=
  C3_weight_conservation (fun _ _ => ⟨0, 0, 0, 0⟩) 1 1 1 0 none
    [⟨0, 1, 1⟩] eval_hist_1x1

/-- C4: on success, the source posterized packed colors of the
histogram's entries are pairwise distinct. -/
theorem C4_distinctness :
    ∀ (apixels : Nat → Nat → rgb_pixel) (cols rows max ib : Nat)
      (imp : Option (Nat → ℚ)) (hist : List hist_item),
      pam_computeacolorhist apixels cols rows max ib imp = some hist →
      (hist.map fun e => e.color).Nodup := by
  intro apixels cols rows max ib imp hist hsome
  rcases (computeacolorhist_cases apixels cols rows max ib imp).2 hist hsome with
    ⟨acht, -, h2, ht, -⟩
  rw [h2]
  exact hist_colors_nodup ht

/-- C4 witness: the 1×1 image's histogram has pairwise distinct colors. -/
theorem C4_distinctness_witness :
    ([(⟨0, 1, 1⟩ : hist_item)].map fun e => e.color).Nodup :=
  C4_distinctness (fun _ _ => ⟨0, 0, 0, 0⟩) 1 1 1 0 none [⟨0, 1, 1⟩] eval_hist_1x1

/-- C5: for a fixed image, a larger `ignorebits` never yields more
distinct posterized colors. -/
theorem C5_posterize_monotone :
    ∀ (ib1 ib2 : Nat) (apixels : Nat → Nat → rgb_pixel) (cols rows : Nat),
      ib1 ≤ ib2 →
      (distinct_posterized ib2 (image_pixels apixels cols rows)).card ≤
        (distinct_posterized ib1 (image_pixels apixels cols rows)).card :=
  fun _ _ apixels cols rows h => distinct_posterized_mono h _

/-- C5 witness: monotonicity at `ignorebits` 0 and 1 on a 1×1 image. -/
theorem C5_posterize_monotone_witness :
    (distinct_posterized 1 (image_pixels (fun _ _ => ⟨0, 0, 0, 0⟩) 1 1)).card ≤
      (distinct_posterized 0 (image_pixels (fun _ _ => ⟨0, 0, 0, 0⟩) 1 1)).card :=
  C5_posterize_monotone 0 1 (fun _ _ => ⟨0, 0, 0, 0⟩) 1 1 (by norm_num)

/-- C6: for every non-empty palette `best_color_index` returns an index
below the palette length; a single-entry palette always yields index 0
(with the distance to that entry). -/
theorem C6_matcher_validity :
    (∀ (cd : f_pixel → f_pixel → ℚ) (px : f_pixel) (map : colormap) (mov : ℚ),
      map.palette ≠ [] →
      ∃ ind dist, best_color_index cd px map mov = some (ind, dist) ∧
        ind < map.palette.length) ∧
    (∀ (cd : f_pixel → f_pixel → ℚ) (px : f_pixel) (item : colormap_item)
        (mov : ℚ),
      best_color_index cd px ⟨[item]⟩ mov = some (0, cd px item.acolor)) := by
  constructor
  · intro cd px map mov hne
    rcases best_color_index_some cd px map mov hne with ⟨ind, dist, item, hres, hit, -⟩
    rcases List.getElem?_eq_some.mp hit with ⟨hlt, -⟩
    exact ⟨ind, dist, hres, hlt⟩
  · exact best_color_index_single

/-- C6 witness: a concrete 1-entry palette. -/
theorem C6_matcher_validity_witness :
    (∃ ind dist, best_color_index (fun _ _ => (0 : ℚ)) ⟨0, 0, 0, 0⟩
        ⟨[⟨⟨1, 0, 0, 0⟩⟩]⟩ 0 = some (ind, dist) ∧ ind < 1) ∧
    best_color_index (fun _ _ => (0 : ℚ)) ⟨0, 0, 0, 0⟩ ⟨[⟨⟨1, 0, 0, 0⟩⟩]⟩ 0 =
      some (0, 0) :=
  ⟨C6_matcher_validity.1 (fun _ _ => 0) ⟨0, 0, 0, 0⟩ ⟨[⟨⟨1, 0, 0, 0⟩⟩]⟩ 0
      (List.cons_ne_nil _ _),
   C6_matcher_validity.2 (fun _ _ => 0) ⟨0, 0, 0, 0⟩ ⟨⟨1, 0, 0, 0⟩⟩ 0⟩

/-- C7: the code performs no emptiness check: `best_color_index` reads
`acolormap[0]` (pam.c:31) before the scan, so for a zero-entry palette
there is no defined result (the out-of-bounds read is modelled as
`none`), not an explicit pre-scan rejection. -/
theorem C7_empty_palette_undefined :
    best_color_index (fun _ _ => (0 : ℚ)) ⟨0, 0, 0, 0⟩ ⟨[]⟩ 0 = none := rfl

/-- C8: whenever the hash table is built, the histogram is obtained from
it, every entry has `adjusted_weight` equal to `perceptual_weight`, and
both fields are the node's accumulated weight (the conversion is a pure
map, so nothing mutates `adjusted_weight` afterwards). -/
theorem C8_adjusted_weight :
    ∀ (apixels : Nat → Nat → rgb_pixel) (cols rows max ib : Nat)
      (imp : Option (Nat → ℚ)) (acht : acolorhash_table),
      pam_computeacolorhash apixels cols rows max ib imp = some acht →
      pam_computeacolorhist apixels cols rows max ib imp =
        some (pam_acolorhashtoacolorhist acht) ∧
      pam_acolorhashtoacolorhist acht = (table_items acht).map (fun achl =>
        ⟨achl.color, achl.perceptual_weight, achl.perceptual_weight⟩) ∧
      ∀ e ∈ pam_acolorhashtoacolorhist acht,
        e.adjusted_weight = e.perceptual_weight := by
  intro apixels cols rows max ib imp acht hsome
  refine ⟨?_, rfl, ?_⟩
  · unfold pam_computeacolorhist
    rw [hsome]
    rfl
  · intro e he
    rcases (computeacolorhash_spec apixels cols rows max ib imp).2 acht hsome with
      ⟨ht, -⟩
    exact (hist_entry_weight ht e he).1

/-- C8 witness: the 1×1 image's hash table and histogram. -/
theorem C8_adjusted_weight_witness :
    pam_computeacolorhist (fun _ _ => ⟨0, 0, 0, 0⟩) 1 1 1 0 none =
      some (pam_acolorhashtoacolorhist ⟨Function.update (fun _ => []) 0 [⟨0, 1⟩], 1⟩) ∧
    pam_acolorhashtoacolorhist ⟨Function.update (fun _ => []) 0 [⟨0, 1⟩], 1⟩ =
      (table_items ⟨Function.update (fun _ => []) 0 [⟨0, 1⟩], 1⟩).map (fun achl =>
        ⟨achl.color, achl.perceptual_weight, achl.perceptual_weight⟩) ∧
    ∀ e ∈ pam_acolorhashtoacolorhist ⟨Function.update (fun _ => []) 0 [⟨0, 1⟩], 1⟩,
      e.adjusted_weight = e.perceptual_weight :=
  C8_adjusted_weight (fun _ _ => ⟨0, 0, 0, 0⟩) 1 1 1 0 none
    ⟨Function.update (fun _ => []) 0 [⟨0, 1⟩], 1⟩ eval_hash_1x1

/-- C9: with `ignorebits ≥ 8` the posterization mask is zero, every
pixel posterizes to packed color 0, and for a non-empty image with
`maxacolors ≥ 1` the construction succeeds with exactly one entry whose
weight is the total boost. -/
theorem C9_ignorebits_ge_8 :
    ∀ (apixels : Nat → Nat → rgb_pixel) (cols rows max ib : Nat)
      (imp : Option (Nat → ℚ)),
      8 ≤ ib → 0 < cols → 0 < rows → 0 < max →
      posterize_mask ib = 0 ∧ (∀ p, posterized ib p = 0) ∧
      ∃ hist, pam_computeacolorhist apixels cols rows max ib imp = some hist ∧
        hist.length = 1 ∧ (∀ e ∈ hist, e.color = 0) ∧
        (hist.map fun e => e.perceptual_weight).sum =
          boost_total (pixel_seq apixels cols rows imp) := by
  intro apixels cols rows max ib imp hib hc hr hm
  refine ⟨posterize_mask_of_ge_8 hib, posterized_of_ge_8 hib, ?_⟩
  have hdist := distinct_posterized_ge_8 hib apixels hc hr
  rcases hhist : pam_computeacolorhist apixels cols rows max ib imp with - | hist
  · exfalso
    have := (computeacolorhist_cases apixels cols rows max ib imp).1.mp hhist
    rw [hdist, Finset.card_singleton] at this
    omega
  · rcases (computeacolorhist_cases apixels cols rows max ib imp).2 hist hhist with
      ⟨acht, -, h2, ht, -⟩
    refine ⟨hist, rfl, ?_, ?_, ?_⟩
    · rw [h2, hist_length ht, ht.colors_eq, pixel_seq_toFinset, hdist,
        Finset.card_singleton]
    · intro e he
      rw [h2] at he
      have hmem := hist_color_mem acht e he
      rw [ht.colors_eq, pixel_seq_toFinset, hdist, Finset.mem_singleton] at hmem
      exact hmem
    · rw [h2]
      exact hist_weight_sum ht

/-- C9 witness: a 1×1 image at `ignorebits = 8`. -/
theorem C9_ignorebits_ge_8_witness :
    posterize_mask 8 = 0 ∧ (∀ p, posterized 8 p = 0) ∧
    ∃ hist, pam_computeacolorhist (fun _ _ => ⟨7, 7, 7, 7⟩) 1 1 1 8 none =
        some hist ∧
      hist.length = 1 ∧ (∀ e ∈ hist, e.color = 0) ∧
      (hist.map fun e => e.perceptual_weight).sum =
        boost_total (pixel_seq (fun _ _ => ⟨7, 7, 7, 7⟩) 1 1 none) :=
  C9_ignorebits_ge_8 (fun _ _ => ⟨7, 7, 7, 7⟩) 1 1 1 8 none (by norm_num)
    (by norm_num) (by norm_num) (by norm_num)

/-- C10: for every non-empty palette the returned pair is the incumbent
index together with exactly the distance to the palette entry at that
index; the distance is stored through `dist_out` only when supplied, and
nothing is stored otherwise. -/
theorem C10_dist_out :
    ∀ (cd : f_pixel → f_pixel → ℚ) (px : f_pixel) (map : colormap) (mov : ℚ),
      map.palette ≠ [] →
      ∃ ind dist item, best_color_index cd px map mov = some (ind, dist) ∧
        map.palette[ind]? = some item ∧ dist = cd px item.acolor ∧
        bci_with_out cd px map mov true = some (ind, some dist) ∧
        bci_with_out cd px map mov false = some (ind, none) := by
  intro cd px map mov hne
  rcases best_color_index_some cd px map mov hne with ⟨ind, dist, item, hres, hit, hdist⟩
  refine ⟨ind, dist, item, hres, hit, hdist, ?_, ?_⟩
  · unfold bci_with_out
    rw [hres]
    rfl
  · unfold bci_with_out
    rw [hres]
    rfl

/-- C10 witness: a concrete 1-entry palette, with and without the
`dist_out` pointer. -/
theorem C10_dist_out_witness :
    ∃ ind dist item, best_color_index (fun _ c => c.r) ⟨0, 0, 0, 0⟩
        ⟨[⟨⟨1, 5, 0, 0⟩⟩]⟩ 0 = some (ind, dist) ∧
      (⟨[⟨⟨1, 5, 0, 0⟩⟩]⟩ : colormap).palette[ind]? = some item ∧
      dist = (fun _ c => c.r) (⟨0, 0, 0, 0⟩ : f_pixel) item.acolor ∧
      bci_with_out (fun _ c => c.r) ⟨0, 0, 0, 0⟩ ⟨[⟨⟨1, 5, 0, 0⟩⟩]⟩ 0 true =
        some (ind, some dist) ∧
      bci_with_out (fun _ c => c.r) ⟨0, 0, 0, 0⟩ ⟨[⟨⟨1, 5, 0, 0⟩⟩]⟩ 0 false =
        some (ind, none) :=
  C10_dist_out (fun _ c => c.r) ⟨0, 0, 0, 0⟩ ⟨[⟨⟨1, 5, 0, 0⟩⟩]⟩ 0
    (List.cons_ne_nil _ _)
